import Mathlib

/-!
Verification of the botfixzed maintenance bot (Deno/TypeScript).

The development shallowly embeds the bot's pure data transformations and
the observable command behaviour of its effectful pipeline steps:

* `bumpVersion` (src/utils.ts) with the `jsr:@std/semver@1.0.4` functions
  `parse`, `increment(_, "patch")` and `format` it calls;
* `retry` (src/utils.ts), with the operator's `confirm` answers as data;
* `openPR` / `updatePr` (src/utils.ts), observed as the trace of external
  commands they issue against an oracle for command results;
* `getExistingPR` (src/utils.ts) against the same oracle;
* `switchDirTemp` (src/utils.ts) together with the scoping behaviour of a
  TypeScript `using` declaration;
* `portExtToToml` / `findRepoConfig` (src/bot2104.ts) with models of
  `JSON.parse` (flat string/number manifests), `@luca/cases` `kebabCase`
  (alphanumeric words) and `@std/toml` `stringify` (flat tables);
* `patchScrollbarThumbBg` / `findThemes` (src/bot2101.ts) with
  `String.replaceAll` modelled on character lists.

The filesystem is modelled as an association list from paths to file
contents; directories exist implicitly as path prefixes, and directory
iteration order is the order of the association list.
-/

namespace Botfixzed

/-! ## Character-list utilities -/

/-- Strip a literal prefix: `stripPre p l` removes `p` from the front of `l`, or fails. -/
def stripPre : List Char → List Char → Option (List Char)
  | [], l => some l
  | _ :: _, [] => none
  | p :: ps, c :: cs => if p = c then stripPre ps cs else none

/-- Prefix test: `startsWithL p l` is true iff `l` begins with `p`. -/
def startsWithL : List Char → List Char → Bool
  | [], _ => true
  | _ :: _, [] => false
  | p :: ps, c :: cs => if p = c then startsWithL ps cs else false

/-- Suffix test: does `l` end with `suf`?  Model of JavaScript
`String.prototype.endsWith` on character lists. -/
def endsWithL (suf l : List Char) : Bool :=
  startsWithL suf.reverse l.reverse

/-- Substring test: does `pat` occur as a contiguous substring of `l`?
This is the model of JavaScript `String.prototype.includes`. -/
def occursL (pat : List Char) : List Char → Bool
  | [] => false
  | c :: cs => startsWithL pat (c :: cs) || occursL pat cs

theorem stripPre_eq_some {p l r : List Char} :
    stripPre p l = some r ↔ l = p ++ r := by
  induction p generalizing l with
  | nil => simp [stripPre]
  | cons a as ih =>
    cases l with
    | nil => simp [stripPre]
    | cons c cs =>
      by_cases h : a = c
      · subst h
        simp [stripPre, ih]
      · simp [stripPre, h, Ne.symm h]

theorem startsWithL_iff {p l : List Char} :
    startsWithL p l = true ↔ ∃ t, l = p ++ t := by
  induction p generalizing l with
  | nil => simp [startsWithL]
  | cons a as ih =>
    cases l with
    | nil => simp [startsWithL]
    | cons c cs =>
      by_cases h : a = c
      · subst h
        simp [startsWithL, ih]
      · constructor
        · intro hs
          simp [startsWithL, h] at hs
        · rintro ⟨t, ht⟩
          injection ht with h1 _
          exact absurd h1.symm h

/-! ## Filesystem model

Files are an association list (path, content); `lookupFile` returns the
first binding.  Directory entries of `dir` are the files whose path is
`dir ++ "/" ++ name` with `name` slash-free, in list order (this models
`Deno.readDirSync`'s iteration order; directories themselves are
represented only implicitly by their files). -/

structure FS where
  files : List (String × String)
deriving DecidableEq

def lookupFile : List (String × String) → String → Option String
  | [], _ => none
  | (k, v) :: rest, p => if k = p then some v else lookupFile rest p

/-- Model of `Deno.readTextFileSync` (`none` = the call throws). -/
def readFile (fs : FS) (p : String) : Option String :=
  lookupFile fs.files p

def writeEntries : List (String × String) → String → String → List (String × String)
  | [], p, c => [(p, c)]
  | (k, v) :: rest, p, c =>
    if k = p then (k, c) :: rest else (k, v) :: writeEntries rest p c

/-- Model of `Deno.writeTextFileSync`: overwrite an existing file or create it. -/
def writeFile (fs : FS) (p c : String) : FS :=
  ⟨writeEntries fs.files p c⟩

/-- Directory membership: `dirChild dir p = some name` iff path `p` is directly inside directory
`dir`, i.e. `p = dir ++ "/" ++ name` with `name` slash-free. -/
def dirChild (dir p : String) : Option String :=
  match stripPre (dir.data ++ ['/']) p.data with
  | none => none
  | some rest => if rest.all (fun c => c != '/') then some (String.mk rest) else none

/-- Model of `Deno.readDirSync dir`: names of the files directly inside
`dir`, in association-list order. -/
def readDirNames (fs : FS) (dir : String) : List String :=
  (fs.files.map Prod.fst).filterMap (dirChild dir)

def existsFile (fs : FS) (p : String) : Bool :=
  (readFile fs p).isSome

def existsDir (fs : FS) (p : String) : Bool :=
  (fs.files.map Prod.fst).any (fun k => (stripPre (p.data ++ ['/']) k.data).isSome)

/-- Model of node's `existsSync`: true for an existing file or directory. -/
def existsSync (fs : FS) (p : String) : Bool :=
  existsFile fs p || existsDir fs p

theorem lookupFile_writeEntries_self (files : List (String × String)) (p c : String) :
    lookupFile (writeEntries files p c) p = some c := by
  induction files with
  | nil => simp [writeEntries, lookupFile]
  | cons kv rest ih =>
    obtain ⟨k, v⟩ := kv
    by_cases h : k = p
    · simp [writeEntries, lookupFile, h]
    · simp [writeEntries, lookupFile, h, ih]

theorem lookupFile_writeEntries_ne (files : List (String × String)) (p q c : String)
    (h : q ≠ p) : lookupFile (writeEntries files p c) q = lookupFile files q := by
  induction files with
  | nil => simp [writeEntries, lookupFile, Ne.symm h]
  | cons kv rest ih =>
    obtain ⟨k, v⟩ := kv
    by_cases hk : k = p
    · subst hk
      simp [writeEntries, lookupFile, Ne.symm h]
    · simp [writeEntries, lookupFile, hk, ih]

theorem map_fst_writeEntries (files : List (String × String)) (p c : String)
    (h : lookupFile files p ≠ none) :
    (writeEntries files p c).map Prod.fst = files.map Prod.fst := by
  induction files with
  | nil => simp [lookupFile] at h
  | cons kv rest ih =>
    obtain ⟨k, v⟩ := kv
    by_cases hk : k = p
    · simp [writeEntries, hk]
    · simp [lookupFile, hk] at h
      simp [writeEntries, hk, ih h]

theorem lookupFile_isSome_of_mem_fst {files : List (String × String)} {p : String}
    (h : p ∈ files.map Prod.fst) : ∃ v, lookupFile files p = some v := by
  induction files with
  | nil => simp at h
  | cons kv rest ih =>
    obtain ⟨k, v⟩ := kv
    by_cases hk : k = p
    · exact ⟨v, by simp [lookupFile, hk]⟩
    · rw [List.map_cons, List.mem_cons] at h
      rcases h with h1 | h2
      · exact absurd h1.symm hk
      · obtain ⟨w, hw⟩ := ih h2
        exact ⟨w, by simp [lookupFile, hk, hw]⟩

/-! ## Semantic versions (`jsr:@std/semver@1.0.4`)

`parseSemVer`, `incrementPatch` and `formatSemVer` model the library's
`parse`, `increment(_, "patch")` and `format`.  Numeric bounds
(`MAX_SAFE_INTEGER`) are not modelled; numbers are unbounded `Nat`. -/

structure SemVer where
  major : Nat
  minor : Nat
  patch : Nat
  prerelease : List String
  build : List String
deriving DecidableEq

def natOfDigits (l : List Char) : Nat :=
  l.foldl (fun n c => n * 10 + (c.toNat - '0'.toNat)) 0

/-- A semver numeric component: nonempty digits, no leading zero. -/
def parseNumericPart (l : List Char) : Option Nat :=
  match l with
  | [] => none
  | c :: cs =>
    if (c :: cs).all (·.isDigit) then
      if c = '0' && cs ≠ [] then none else some (natOfDigits (c :: cs))
    else none

def isIdentChar (c : Char) : Bool :=
  c.isAlphanum || c = '-'

/-- A prerelease identifier: nonempty, alphanumeric or hyphen, and if all
digits then no leading zero. -/
def validPreIdent (l : List Char) : Bool :=
  match l with
  | [] => false
  | c :: cs =>
    (c :: cs).all isIdentChar &&
      (if (c :: cs).all (·.isDigit) then !(c = '0' && cs ≠ []) else true)

/-- A build identifier: nonempty, alphanumeric or hyphen. -/
def validBuildIdent (l : List Char) : Bool :=
  match l with
  | [] => false
  | c :: cs => (c :: cs).all isIdentChar

/-- Split at the first occurrence of `c`, if any. -/
def splitFirst (c : Char) : List Char → List Char × Option (List Char)
  | [] => ([], none)
  | x :: xs =>
    if x = c then ([], some xs)
    else
      let (a, b) := splitFirst c xs
      (x :: a, b)

def parseCore (l : List Char) : Option (Nat × Nat × Nat) :=
  match l.splitOn '.' with
  | [a, b, c] =>
    match parseNumericPart a, parseNumericPart b, parseNumericPart c with
    | some ma, some mi, some pa => some (ma, mi, pa)
    | _, _, _ => none
  | _ => none

/-- Model of `@std/semver` `parse` (`none` = the call throws a `TypeError`).
The version is `major.minor.patch`, optionally `-prerelease` (everything
after the first `-` following the core) and `+build`. -/
def parseSemVer (s : String) : Option SemVer :=
  let (rel, buildPart) := splitFirst '+' s.data
  let (core, prePart) := splitFirst '-' rel
  match parseCore core with
  | none => none
  | some (ma, mi, pa) =>
    let pre : Option (List String) :=
      match prePart with
      | none => some []
      | some p =>
        let ids := p.splitOn '.'
        if ids.all validPreIdent then some (ids.map String.mk) else none
    let bld : Option (List String) :=
      match buildPart with
      | none => some []
      | some b =>
        let ids := b.splitOn '.'
        if ids.all validBuildIdent then some (ids.map String.mk) else none
    match pre, bld with
    | some pr, some bl => some ⟨ma, mi, pa, pr, bl⟩
    | _, _ => none

/-- Model of `@std/semver` `increment(version, "patch")`: bumps the patch
number only when there is no prerelease (`1.2.0-5` patches to `1.2.0`,
`1.2.1` patches to `1.2.2`), and clears prerelease and build metadata. -/
def incrementPatch (v : SemVer) : SemVer :=
  { major := v.major
    minor := v.minor
    patch := if v.prerelease.isEmpty then v.patch + 1 else v.patch
    prerelease := []
    build := [] }

def joinDot (l : List String) : String :=
  String.intercalate "." l

/-- Model of `@std/semver` `format`. -/
def formatSemVer (v : SemVer) : String :=
  let primary := toString v.major ++ "." ++ toString v.minor ++ "." ++ toString v.patch
  let rel := if v.prerelease.isEmpty then primary else primary ++ "-" ++ joinDot v.prerelease
  if v.build.isEmpty then rel else rel ++ "+" ++ joinDot v.build

/-! ## The targeted version-field rewrite of `bumpVersion`

`bumpVersion` (src/utils.ts) rewrites only the version field with
`file.replace(/version = "[^"]+"/, ...)` resp.
`file.replace(/"version": "[^"]+"/, ...)`.  `findField lit` models the
leftmost match of the pattern `lit ++ [^"]+ ++ '"'`, returning the text
before the match, the matched inner part, and the text after. -/

def matchField (lit l : List Char) : Option (List Char × List Char) :=
  match stripPre lit l with
  | none => none
  | some r =>
    match r.dropWhile (fun c => c != '"') with
    | '"' :: r2 =>
      if (r.takeWhile (fun c => c != '"')).isEmpty then none
      else some (r.takeWhile (fun c => c != '"'), r2)
    | _ => none

def findField (lit : List Char) : List Char → Option (List Char × List Char × List Char)
  | [] => none
  | c :: cs =>
    match matchField lit (c :: cs) with
    | some (inner, rest) => some ([], inner, rest)
    | none =>
      match findField lit cs with
      | none => none
      | some (pre, inner, rest) => some (c :: pre, inner, rest)

/-- Model of `file.replace(regex, lit ++ nv ++ '"')`: replace the leftmost
match; if there is none, leave the text unchanged. -/
def replaceField (lit nv l : List Char) : List Char :=
  match findField lit l with
  | none => l
  | some (pre, _, post) => pre ++ lit ++ nv ++ '"' :: post

/-- The version-field literal of the TOML branch: `version = "`. -/
def verLitToml : List Char := "version = \"".data

/-- The version-field literal of the JSON branch: `"version": "`. -/
def verLitJson : List Char := "\"version\": \"".data

theorem matchField_eq_some {lit l inner rest : List Char}
    (h : matchField lit l = some (inner, rest)) :
    l = lit ++ inner ++ '"' :: rest := by
  unfold matchField at h
  split at h
  · exact absurd h (by simp)
  · rename_i r hs
    split at h
    · rename_i r2 hd
      split at h
      · exact absurd h (by simp)
      · simp only [Option.some.injEq, Prod.mk.injEq] at h
        obtain ⟨h1, h2⟩ := h
        have hr : l = lit ++ r := stripPre_eq_some.mp hs
        have hsplit : r.takeWhile (fun c => c != '"') ++ r.dropWhile (fun c => c != '"') = r :=
          List.takeWhile_append_dropWhile _ _
        rw [hr, ← hsplit, hd, h1, h2, List.append_assoc]
    · exact absurd h (by simp)

theorem findField_eq_some {lit l pre inner post : List Char}
    (h : findField lit l = some (pre, inner, post)) :
    l = pre ++ lit ++ inner ++ '"' :: post := by
  induction l generalizing pre with
  | nil => simp [findField] at h
  | cons c cs ih =>
    unfold findField at h
    cases hm : matchField lit (c :: cs) with
    | some p =>
      obtain ⟨i, r⟩ := p
      rw [hm] at h
      simp only [Option.some.injEq, Prod.mk.injEq] at h
      obtain ⟨h1, h2, h3⟩ := h
      subst h1 h2 h3
      simpa using matchField_eq_some hm
    | none =>
      rw [hm] at h
      cases hf : findField lit cs with
      | none => rw [hf] at h; exact absurd h (by simp)
      | some p =>
        obtain ⟨p1, i1, r1⟩ := p
        rw [hf] at h
        simp only [Option.some.injEq, Prod.mk.injEq] at h
        obtain ⟨h1, h2, h3⟩ := h
        subst h2 h3
        rw [← h1]
        simpa using congrArg (c :: ·) (ih hf)

theorem formatSemVer_incrementPatch_plain (a b c : Nat) :
    formatSemVer (incrementPatch ⟨a, b, c, [], []⟩) =
      toString a ++ "." ++ toString b ++ "." ++ toString (c + 1) := by
  simp [incrementPatch, formatSemVer]

/-! ## The PR publisher, observed as command traces

`run` (src/utils.ts) shells out to an external command and reports
`{success, stdout, stderr}`.  The external world is an oracle mapping each
command line to its result.  `openPR` and `updatePr` are embedded as the
trace of command lines they issue. -/

structure RunResult where
  success : Bool
  stdout : String
  stderr : String

/-- Model of `openPR` (src/utils.ts) as its command trace: diff, fork,
remote-add, branch, stage, commit; push and `gh pr create` only when the
commit succeeded.  `now` stands for `Date.now()` in the branch name. -/
def openPR (exec : List String → RunResult)
    (user name username commitMsg prTitle prBody : String) (now : Nat) :
    List (List String) :=
  if (exec ["git", "commit", "-m", commitMsg]).success then
    [["git", "diff"],
     ["gh", "repo", "fork", user ++ "/" ++ name, "--remote=false"],
     ["git", "remote", "add", "fork", "https://github.com/" ++ username ++ "/" ++ name ++ ".git"],
     ["git", "checkout", "-b", "update-attr-" ++ toString now],
     ["git", "add", "."],
     ["git", "commit", "-m", commitMsg],
     ["git", "push", "-u", "fork", "update-attr-" ++ toString now],
     ["gh", "pr", "create", "--title", prTitle, "--body", prBody, "--repo", user ++ "/" ++ name]]
  else
    [["git", "diff"],
     ["gh", "repo", "fork", user ++ "/" ++ name, "--remote=false"],
     ["git", "remote", "add", "fork", "https://github.com/" ++ username ++ "/" ++ name ++ ".git"],
     ["git", "checkout", "-b", "update-attr-" ++ toString now],
     ["git", "add", "."],
     ["git", "commit", "-m", commitMsg]]

/-- Model of `updatePr` (src/utils.ts) as its command trace: diff, stage,
commit with the fixed message; push only when the commit succeeded. -/
def updatePr (exec : List String → RunResult) (branchName : String) :
    List (List String) :=
  if (exec ["git", "commit", "-m",
      "rename scrollbar_thumb.background to scrollbar.thumb.background"]).success then
    [["git", "diff"],
     ["git", "add", "."],
     ["git", "commit", "-m", "rename scrollbar_thumb.background to scrollbar.thumb.background"],
     ["git", "push", "-u", "fork", branchName]]
  else
    [["git", "diff"],
     ["git", "add", "."],
     ["git", "commit", "-m", "rename scrollbar_thumb.background to scrollbar.thumb.background"]]

def isPushCmd (c : List String) : Bool :=
  c.take 2 = ["git", "push"]

def isPrCreateCmd (c : List String) : Bool :=
  c.take 3 = ["gh", "pr", "create"]

/-! ## Claim C2 -/

/-- C2: when the git commit step reports failure (nothing to commit), both
`openPR` and `updatePr` return without issuing any `git push` or
`gh pr create` command. -/
theorem publisher_skips_push_on_commit_failure :
    ∀ (exec : List String → RunResult)
      (user name username commitMsg prTitle prBody branchName : String) (now : Nat),
    (exec ["git", "commit", "-m", commitMsg]).success = false →
    (exec ["git", "commit", "-m",
      "rename scrollbar_thumb.background to scrollbar.thumb.background"]).success = false →
    ((openPR exec user name username commitMsg prTitle prBody now).all
      (fun c => !isPushCmd c && !isPrCreateCmd c) = true ∧
     (updatePr exec branchName).all
      (fun c => !isPushCmd c && !isPrCreateCmd c) = true) := by
  intro exec user name username commitMsg prTitle prBody branchName now h1 h2
  constructor
  · simp [openPR, h1, isPushCmd, isPrCreateCmd]
  · simp [updatePr, h2, isPushCmd, isPrCreateCmd]

/-- C2 witness: a world in which every command fails. -/
theorem publisher_skips_push_on_commit_failure_witness :
    (openPR (fun _ => ⟨false, "", ""⟩) "u" "n" "bot" "msg" "title" "body" 0).all
      (fun c => !isPushCmd c && !isPrCreateCmd c) = true ∧
    (updatePr (fun _ => ⟨false, "", ""⟩) "branch").all
      (fun c => !isPushCmd c && !isPrCreateCmd c) = true :=
  publisher_skips_push_on_commit_failure (fun _ => ⟨false, "", ""⟩)
    "u" "n" "bot" "msg" "title" "body" "branch" 0 rfl rfl

/-! ## The retry wrapper

`retry` (src/utils.ts) runs `fn`; on success it returns, on a thrown
failure it asks the operator `confirm("Do you want to retry ? ")` and
loops on "yes", returns on "no".  The embedding takes the outcome of the
`k`-th invocation as `fnOk k` (`true` = returns normally, `false` =
throws) and the operator's successive answers as a list; it returns the
total number of invocations of `fn`.  The embedding is total because
`retry` catches every failure of `fn`; if the (finite) answer list runs
out the run is treated as abandoned. -/

def retry (fnOk : Nat → Bool) : List Bool → Nat → Nat
  | answers, k =>
    if fnOk k then k + 1
    else
      match answers with
      | [] => k + 1
      | ans :: rest => if ans then retry fnOk rest (k + 1) else k + 1

/-! ## Claim C3 -/

theorem retry_go (fnOk : Nat → Bool) (hall : ∀ k, fnOk k = false) :
    ∀ (n k : Nat) (rest : List Bool),
      retry fnOk (List.replicate n true ++ false :: rest) k = k + n + 1 := by
  intro n
  induction n with
  | zero => intro k rest; simp [retry, hall k]
  | succ m ih =>
    intro k rest
    simp only [List.replicate_succ, List.cons_append]
    rw [retry]
    simp [hall k, ih (k + 1), Nat.add_assoc, Nat.add_comm 1 m]

/-- C3: a pipeline that always throws, with the operator answering "no" at
the first prompt, is invoked exactly once, and `retry` returns (the
embedding is total).  More generally, after `n` "yes" answers followed by
a "no", the pipeline has been invoked exactly `n + 1` times: `fn` is
re-invoked only while the operator answers "yes". -/
theorem retry_invocations :
    (∀ (fnOk : Nat → Bool) (rest : List Bool), fnOk 0 = false →
      retry fnOk (false :: rest) 0 = 1) ∧
    (∀ (fnOk : Nat → Bool) (n : Nat) (rest : List Bool), (∀ k, fnOk k = false) →
      retry fnOk (List.replicate n true ++ false :: rest) 0 = n + 1) := by
  constructor
  · intro fnOk rest h
    simp [retry, h]
  · intro fnOk n rest hall
    simpa using retry_go fnOk hall n 0 rest

/-- C3 witness: an always-failing pipeline with a single "no" answer runs
exactly once. -/
theorem retry_invocations_witness :
    retry (fun _ => false) (false :: []) 0 = 1 :=
  retry_invocations.1 (fun _ => false) [] rfl

/-! ## Scoped directory switch

`switchDirTemp` (src/utils.ts) captures the current working directory,
changes into `dir`, and returns a disposable whose `Symbol.dispose`
changes back to the captured directory.  The working directory is the
explicit state; a body computation transforms it and either produces a
value or throws (`Except`).  `usingScope` encodes the TypeScript `using`
declaration semantics: the disposer runs on every exit of the scope —
normal completion, early return, or thrown error (all of which surface
here as the `Except` result of the body). -/

/-- Model of `switchDirTemp`: given the current working directory, the new
working directory and the disposer (a function on the working
directory). -/
def switchDirTemp (dir cwd : String) : String × (String → String) :=
  (dir, fun _ => cwd)

/-- Scope of `using _ = switchDirTemp dir` around `body`: run the body in the
switched directory, then apply the disposer to whatever working directory
the body left behind, whether the body returned or threw. -/
def usingScope {α : Type} (dir : String)
    (body : String → Except String α × String) (cwd0 : String) :
    Except String α × String :=
  let s := switchDirTemp dir cwd0
  let r := body s.1
  (r.1, s.2 r.2)

/-! ## Claim C8 -/

/-- C8: for every directory and every body — whatever working directory
it moves to and whether it returns a value or throws — the scope built
from `switchDirTemp` restores the working directory that was current
before the switch, and the body runs in the requested directory. -/
theorem switchDirTemp_restores_cwd :
    ∀ (α : Type) (dir cwd0 : String) (body : String → Except String α × String),
      (usingScope dir body cwd0).2 = cwd0 ∧
      (usingScope dir body cwd0).1 = (body dir).1 := by
  intro α dir cwd0 body
  exact ⟨rfl, rfl⟩

/-! ## Existing-PR lookup

`getExistingPR` (src/utils.ts) runs `gh pr list` and parses its JSON
stdout.  The JSON decoding of the CLI's output is abstracted into the
`parsePrs` oracle (`none` = `JSON.parse` throws); the outer `Option`
models a thrown error, the inner one the `string | null` return type. -/

structure PrEntry where
  number : Nat
  headRefName : String
deriving DecidableEq

def prListCmd (user repo username : String) : List String :=
  ["gh", "pr", "list", "--repo", user ++ "/" ++ repo, "--author", username,
   "--json", "number,headRefName"]

/-- Model of `getExistingPR`: on command failure return `null`; otherwise
parse the PR list and return `null` for an empty list or the first PR's
branch name. -/
def getExistingPR (exec : List String → RunResult)
    (parsePrs : String → Option (List PrEntry))
    (user repo username : String) : Option (Option String) :=
  if (exec (prListCmd user repo username)).success then
    match parsePrs (exec (prListCmd user repo username)).stdout with
    | none => none
    | some [] => some none
    | some (pr :: _) => some (some pr.headRefName)
  else some none

/-- The caller's branch test (`if (existingPRBranchName)` in src/bot2101.ts
and src/bot2104.ts): JavaScript truthiness of a `string | null`, which
chooses the update path exactly for a non-null, non-empty branch name. -/
def choosesUpdatePath (existing : Option String) : Bool :=
  match existing with
  | none => false
  | some b => b ≠ ""

/-! ## Claim C9 -/

/-- C9: when the `gh pr list` command fails, `getExistingPR` returns
`null` without raising — exactly the value returned when the query
succeeds with an empty PR list — so the caller cannot distinguish the two
and proceeds on the create-new-PR path. -/
theorem getExistingPR_failure_is_null :
    ∀ (exec exec2 : List String → RunResult)
      (parsePrs : String → Option (List PrEntry)) (user repo username : String),
    (exec (prListCmd user repo username)).success = false →
    (exec2 (prListCmd user repo username)).success = true →
    parsePrs (exec2 (prListCmd user repo username)).stdout = some [] →
    (getExistingPR exec parsePrs user repo username = some none ∧
     getExistingPR exec2 parsePrs user repo username = some none ∧
     choosesUpdatePath none = false) := by
  intro exec exec2 parsePrs user repo username h1 h2 h3
  refine ⟨?_, ?_, rfl⟩
  · simp [getExistingPR, h1]
  · simp [getExistingPR, h2, h3]

/-- C9 witness: a failing world and an empty-PR-list world. -/
theorem getExistingPR_failure_is_null_witness :
    getExistingPR (fun _ => ⟨false, "", ""⟩) (fun _ => some []) "u" "r" "bot" = some none ∧
    getExistingPR (fun _ => ⟨true, "[]", ""⟩) (fun _ => some []) "u" "r" "bot" = some none ∧
    choosesUpdatePath none = false :=
  getExistingPR_failure_is_null (fun _ => ⟨false, "", ""⟩) (fun _ => ⟨true, "[]", ""⟩)
    (fun _ => some []) "u" "r" "bot" rfl rfl rfl

/-! ## The manifest port (src/bot2104.ts)

`portExtToToml` reads `extension.json` with `JSON.parse`, adds
`id = kebabCase(name)`, bumps the semver version, adds
`schema_version = 1`, serializes with `@std/toml`'s `stringify`, and
optionally appends the grammar found by `findRepoConfig`.

The external library models: `JSON.parse` is modelled for the flat
manifest objects the bot consumes (string and number values, no escape
sequences); `kebabCase` (from `@luca/cases`) for names made of
space-separated alphanumeric words; `stringify` for flat tables of
strings and integers, one `key = value` line each, in insertion order. -/

inductive JVal where
  | jstr : String → JVal
  | jnum : Nat → JVal
deriving DecidableEq

def jsonWs (c : Char) : Bool :=
  c = ' ' || c = '\n' || c = '\t' || c = '\r'

def skipWs (l : List Char) : List Char :=
  l.dropWhile jsonWs

/-- The body of a JSON string after its opening quote: the content up to
the closing quote and the remainder after it (escapes unsupported). -/
def parseJStringBody : List Char → Option (List Char × List Char)
  | [] => none
  | c :: cs =>
    if c = '"' then some ([], cs)
    else if c = '\\' then none
    else
      match parseJStringBody cs with
      | none => none
      | some (acc, rest) => some (c :: acc, rest)

def parseJString (l : List Char) : Option (String × List Char) :=
  match l with
  | '"' :: rest =>
    match parseJStringBody rest with
    | none => none
    | some (body, r) => some (String.mk body, r)
  | _ => none

def parseJNum (l : List Char) : Option (Nat × List Char) :=
  match l.takeWhile (·.isDigit) with
  | [] => none
  | ds => some (natOfDigits ds, l.drop ds.length)

def parseJVal (l : List Char) : Option (JVal × List Char) :=
  match parseJString l with
  | some (s, r) => some (.jstr s, r)
  | none =>
    match parseJNum l with
    | some (n, r) => some (.jnum n, r)
    | none => none

/-- The members of a JSON object after its opening brace (fuelled). -/
def parseJMembers : Nat → List Char → Option (List (String × JVal) × List Char)
  | 0, _ => none
  | fuel + 1, l =>
    match parseJString (skipWs l) with
    | none => none
    | some (key, r1) =>
      match skipWs r1 with
      | ':' :: r2 =>
        match parseJVal (skipWs r2) with
        | none => none
        | some (v, r3) =>
          match skipWs r3 with
          | ',' :: r4 =>
            match parseJMembers fuel r4 with
            | none => none
            | some (rest, r5) => some ((key, v) :: rest, r5)
          | '\x7d' :: r4 => some ([(key, v)], r4)
          | _ => none
      | _ => none

/-- Model of `JSON.parse` on the flat manifest objects this bot reads
(`none` = the call throws a `SyntaxError`). -/
def parseJsonObj (s : String) : Option (List (String × JVal)) :=
  match skipWs s.data with
  | '\x7b' :: r =>
    match skipWs r with
    | '\x7d' :: r2 => if skipWs r2 = [] then some [] else none
    | r2 =>
      match parseJMembers (r2.length + 1) r2 with
      | none => none
      | some (ms, rest) => if skipWs rest = [] then some ms else none
  | _ => none

/-- JavaScript property assignment on the parsed object: update an
existing key in place, or append a new one. -/
def setField : List (String × JVal) → String → JVal → List (String × JVal)
  | [], k, v => [(k, v)]
  | (k0, v0) :: rest, k, v =>
    if k0 = k then (k0, v) :: rest else (k0, v0) :: setField rest k v

def getStr (obj : List (String × JVal)) (k : String) : Option String :=
  match obj.lookup k with
  | some (.jstr s) => some s
  | _ => none

/-- Model of `@luca/cases` `kebabCase` for names of space-separated
alphanumeric words: lowercase the words and join them with `-`. -/
def kebabCase (s : String) : String :=
  String.intercalate "-"
    (((s.data.splitOn ' ').filter (· ≠ [])).map (fun w => String.mk (w.map Char.toLower)))

def tomlEscapeChar (c : Char) : List Char :=
  if c = '"' then ['\\', '"'] else if c = '\\' then ['\\', '\\'] else [c]

def tomlValue : JVal → String
  | .jstr s => "\"" ++ String.mk ((s.data.map tomlEscapeChar).flatten) ++ "\""
  | .jnum n => toString n

/-- Model of `@std/toml` `stringify` for a flat table: one
`key = value` line per entry, in order, each newline-terminated. -/
def stringifyToml (obj : List (String × JVal)) : String :=
  String.join (obj.map (fun kv => kv.1 ++ " = " ++ tomlValue kv.2 ++ "\n"))

/-- Model of `name.replace(/\.toml$/, "")`. -/
def stripTomlExt (n : String) : String :=
  if endsWithL ".toml".data n.data then String.mk (n.data.take (n.data.length - 5)) else n

/-- The loop of `findRepoConfig`: the first directory entry whose name
ends in `.toml` (entries are files in this model). -/
def findTomlName : List String → Option String
  | [] => none
  | n :: rest => if endsWithL ".toml".data n.data then some n else findTomlName rest

/-- Model of `findRepoConfig` (src/bot2104.ts), relative to the repo root:
nothing when `grammars/` is absent, otherwise the name (without `.toml`)
and content of the first `.toml` file in iteration order. -/
def findRepoConfig (fs : FS) : Option (String × String) :=
  if existsDir fs "grammars" then
    match findTomlName (readDirNames fs "grammars") with
    | some n =>
      match readFile fs ("grammars/" ++ n) with
      | some content => some (stripTomlExt n, content)
      | none => none
    | none => none
  else none

/-- Model of `portExtToToml` (src/bot2104.ts), with paths relative to the
repo root the bot has switched into.  `none` models a thrown error
(missing or malformed `extension.json`, non-string name, unparsable
version); `(fs, changed)` otherwise. -/
def portExtToToml (fs : FS) : Option (FS × Bool) :=
  if existsSync fs "extension.toml" then some (fs, false)
  else
    match readFile fs "extension.json" with
    | none => none
    | some jsonText =>
      match parseJsonObj jsonText with
      | none => none
      | some obj0 =>
        match getStr obj0 "name" with
        | none => none
        | some nm =>
          match getStr (setField obj0 "id" (.jstr (kebabCase nm))) "version" with
          | none => none
          | some vs =>
            match parseSemVer vs with
            | none => none
            | some sv =>
              some (writeFile fs "extension.toml"
                (match findRepoConfig fs with
                 | some (n, content) =>
                   stringifyToml
                     (setField
                       (setField (setField obj0 "id" (.jstr (kebabCase nm))) "version"
                         (.jstr (formatSemVer (incrementPatch sv))))
                       "schema_version" (.jnum 1)) ++
                   "grammar = \"" ++ n ++ "\"" ++ "\n[grammars." ++ n ++ "]\n" ++ content
                 | none =>
                   stringifyToml
                     (setField
                       (setField (setField obj0 "id" (.jstr (kebabCase nm))) "version"
                         (.jstr (formatSemVer (incrementPatch sv))))
                       "schema_version" (.jnum 1))), true)

/-! ## Claims C4, C5, C6 -/

def fsLegacy : FS :=
  ⟨[("extension.json", "\x7b\"name\": \"My Cool Ext\", \"version\": \"1.0.0\"\x7d")]⟩

def portedToml : String :=
  "name = \"My Cool Ext\"\nversion = \"1.0.1\"\nid = \"my-cool-ext\"\nschema_version = 1\n"

/-- C4: porting the legacy manifest `{"name": "My Cool Ext", "version":
"1.0.0"}` with no companion grammar config writes an `extension.toml`
containing `id = "my-cool-ext"`, `version = "1.0.1"` and
`schema_version = 1`, with no `grammar` key and no `grammars` table, and
reports `changed = true`. -/
theorem portExtToToml_basic_manifest :
    portExtToToml fsLegacy = some (writeFile fsLegacy "extension.toml" portedToml, true) ∧
    readFile (writeFile fsLegacy "extension.toml" portedToml) "extension.toml" =
      some portedToml ∧
    occursL "id = \"my-cool-ext\"".data portedToml.data = true ∧
    occursL "version = \"1.0.1\"".data portedToml.data = true ∧
    occursL "schema_version = 1".data portedToml.data = true ∧
    occursL "grammar".data portedToml.data = false :=
  ⟨by decide, by decide, by decide, by decide, by decide, by decide⟩

def fsLegacyGrammar : FS :=
  ⟨[("extension.json", "\x7b\"name\": \"My Cool Ext\", \"version\": \"1.0.0\"\x7d"),
    ("grammars/rust.toml", "path = \"grammars/rust\"")]⟩

def portedTomlGrammar : String :=
  "name = \"My Cool Ext\"\nversion = \"1.0.1\"\nid = \"my-cool-ext\"\nschema_version = 1\n" ++
  "grammar = \"rust\"\n[grammars.rust]\npath = \"grammars/rust\""

/-- C5: with the companion config `grammars/rust.toml` containing
`path = "grammars/rust"`, the port additionally appends
`grammar = "rust"` and a `[grammars.rust]` section holding the companion
file's content verbatim. -/
theorem portExtToToml_grammar_manifest :
    portExtToToml fsLegacyGrammar =
      some (writeFile fsLegacyGrammar "extension.toml" portedTomlGrammar, true) ∧
    readFile (writeFile fsLegacyGrammar "extension.toml" portedTomlGrammar) "extension.toml" =
      some portedTomlGrammar ∧
    occursL "grammar = \"rust\"".data portedTomlGrammar.data = true ∧
    occursL "[grammars.rust]\npath = \"grammars/rust\"".data portedTomlGrammar.data = true :=
  ⟨by decide, by decide, by decide, by decide⟩

/-- C6: whenever `extension.toml` already exists, the port is a no-op —
`changed = false`, the filesystem is returned unchanged, and no error can
arise from `extension.json`, which is never read. -/
theorem portExtToToml_existing_toml_noop (fs : FS)
    (h : existsSync fs "extension.toml" = true) :
    portExtToToml fs = some (fs, false) := by
  simp [portExtToToml, h]

def fsTomlGarbage : FS :=
  ⟨[("extension.toml", "anything"), ("extension.json", "this is not JSON")]⟩

/-- C6 witness: the target file exists and the legacy file is malformed,
yet the port succeeds as a no-op. -/
theorem portExtToToml_existing_toml_noop_witness :
    existsSync fsTomlGarbage "extension.toml" = true ∧
    portExtToToml fsTomlGarbage = some (fsTomlGarbage, false) :=
  ⟨by decide, portExtToToml_existing_toml_noop fsTomlGarbage (by decide)⟩

/-! ## Claim C10 -/

theorem string_data_inj {a b : String} (h : a.data = b.data) : a = b :=
  congrArg String.mk h

theorem dirChild_eq {dir p n : String} (h : dirChild dir p = some n) :
    p = dir ++ "/" ++ n := by
  unfold dirChild at h
  split at h
  · exact absurd h (by simp)
  · rename_i rest hs
    split at h
    · simp only [Option.some.injEq] at h
      apply string_data_inj
      have hp : p.data = (dir.data ++ ['/']) ++ rest := stripPre_eq_some.mp hs
      rw [hp, ← h]
      simp [String.data_append]
    · exact absurd h (by simp)

theorem findTomlName_eq_head (l : List String) :
    findTomlName l = (l.filter (fun n => endsWithL ".toml".data n.data)).head? := by
  induction l with
  | nil => simp [findTomlName]
  | cons n rest ih =>
    by_cases h : endsWithL ".toml".data n.data
    · simp [findTomlName, h, List.filter_cons]
    · simp [findTomlName, h, List.filter_cons, ih]

/-- The `.toml` entries of the `grammars` directory, in iteration order. -/
def tomlEntries (fs : FS) : List String :=
  (readDirNames fs "grammars").filter (fun n => endsWithL ".toml".data n.data)

theorem mem_readDirNames {fs : FS} {dir n : String} (h : n ∈ readDirNames fs dir) :
    ∃ k ∈ fs.files.map Prod.fst, dirChild dir k = some n := by
  unfold readDirNames at h
  obtain ⟨k, hk, hc⟩ := List.mem_filterMap.mp h
  exact ⟨k, hk, hc⟩

theorem existsDir_of_dirChild {fs : FS} {dir k n : String}
    (hk : k ∈ fs.files.map Prod.fst) (hc : dirChild dir k = some n) :
    existsDir fs dir = true := by
  unfold existsDir
  rw [List.any_eq_true]
  refine ⟨k, hk, ?_⟩
  unfold dirChild at hc
  split at hc
  · exact absurd hc (by simp)
  · rename_i rest hs
    simp [hs]

/-- C10: `findRepoConfig` embeds at most one grammar: it returns exactly
the first `.toml`-named file of the `grammars` directory in iteration
order — any further `.toml` files are ignored — and nothing when there is
no such file (in particular when the directory is absent). -/
theorem findRepoConfig_first_toml :
    (∀ (fs : FS) (n : String) (rest : List String),
      tomlEntries fs = n :: rest →
      ∃ c, readFile fs ("grammars/" ++ n) = some c ∧
        findRepoConfig fs = some (stripTomlExt n, c)) ∧
    (∀ fs : FS, tomlEntries fs = [] → findRepoConfig fs = none) := by
  constructor
  · intro fs n rest h
    have hmem : n ∈ readDirNames fs "grammars" := by
      have : n ∈ tomlEntries fs := by rw [h]; exact List.mem_cons_self n rest
      exact List.mem_of_mem_filter this
    obtain ⟨k, hk, hc⟩ := mem_readDirNames hmem
    have hkey : k = "grammars/" ++ n := dirChild_eq hc
    obtain ⟨c, hcv⟩ := lookupFile_isSome_of_mem_fst (hkey ▸ hk)
    have hread : readFile fs ("grammars/" ++ n) = some c := hcv
    have hdir : existsDir fs "grammars" = true := existsDir_of_dirChild hk hc
    have hfind : findTomlName (readDirNames fs "grammars") = some n := by
      rw [findTomlName_eq_head]
      show (tomlEntries fs).head? = some n
      rw [h]
      rfl
    exact ⟨c, hread, by simp [findRepoConfig, hdir, hfind, hread]⟩
  · intro fs h
    have hfind : findTomlName (readDirNames fs "grammars") = none := by
      rw [findTomlName_eq_head]
      show (tomlEntries fs).head? = none
      rw [h]
      rfl
    unfold findRepoConfig
    cases hdir : existsDir fs "grammars" with
    | false => simp
    | true => simp [hfind]

def fsGrammars : FS :=
  ⟨[("grammars/readme.txt", "hello"), ("grammars/b.toml", "bcontent"),
    ("grammars/c.toml", "ccontent")]⟩

/-- C10 witness: of two `.toml` companion files, only the first in
iteration order is embedded. -/
theorem findRepoConfig_first_toml_witness :
    tomlEntries fsGrammars = ["b.toml", "c.toml"] ∧
    findRepoConfig fsGrammars = some ("b", "bcontent") := by
  refine ⟨by decide, ?_⟩
  obtain ⟨c, hc, hf⟩ := findRepoConfig_first_toml.1 fsGrammars "b.toml" ["c.toml"] (by decide)
  have h2 : readFile fsGrammars ("grammars/" ++ "b.toml") = some "bcontent" := by decide
  have hcb : c = "bcontent" := Option.some.inj (hc.symm.trans h2)
  have hstrip : stripTomlExt "b.toml" = "b" := by decide
  rw [hf, hcb, hstrip]

/-! ## The version bumper (src/utils.ts)

The source `bumpVersion` parses the *whole* manifest document
(`parseToml` resp. `JSON.parse`), reads the parsed document's top-level
`version` field, increments its patch component, and splices the result
into the first regex match `version = "[^"]+"` (TOML) resp.
`"version": "[^"]+"` (JSON) of the file text — a targeted text
substitution, not a re-serialization.

`parseTomlFlat` models `@std/toml@1.0.2` `parse` for the flat manifests
this bot handles: a sequence of `key = "string"` / `key = integer` lines,
blank lines and `#` comment lines; anything else — including a key
defined twice, which TOML forbids — fails (`none` = the call throws).
The JSON branch reuses `parseJsonObj`. -/

def tomlWs (c : Char) : Bool :=
  c = ' ' || c = '\t'

def isBareKeyChar (c : Char) : Bool :=
  c.isAlphanum || c = '_' || c = '-'

/-- Parse one line of a flat TOML document: `none` = malformed,
`some none` = ignorable (blank or comment), `some (some kv)` = a
key-value pair. -/
def parseTomlLine (l : List Char) : Option (Option (String × JVal)) :=
  match l.dropWhile tomlWs with
  | [] => some none
  | '#' :: _ => some none
  | l1 =>
    match l1.takeWhile isBareKeyChar with
    | [] => none
    | key =>
      match (l1.drop key.length).dropWhile tomlWs with
      | '=' :: r2 =>
        match r2.dropWhile tomlWs with
        | '"' :: rest =>
          match parseJStringBody rest with
          | some (body, rem) =>
            if rem.dropWhile tomlWs = [] then
              some (some (String.mk key, .jstr (String.mk body)))
            else none
          | none => none
        | r3 =>
          match r3.takeWhile (·.isDigit) with
          | [] => none
          | ds =>
            if (r3.drop ds.length).dropWhile tomlWs = [] then
              some (some (String.mk key, .jnum (natOfDigits ds)))
            else none
      | _ => none

/-- Parse the lines of a flat TOML document, rejecting duplicate keys. -/
def parseTomlLines : List (List Char) → Option (List (String × JVal))
  | [] => some []
  | line :: rest =>
    match parseTomlLine line with
    | none => none
    | some none => parseTomlLines rest
    | some (some kv) =>
      match parseTomlLines rest with
      | none => none
      | some kvs =>
        if (kvs.map Prod.fst).contains kv.1 then none else some (kv :: kvs)

/-- Model of `@std/toml@1.0.2` `parse` on flat manifest documents. -/
def parseTomlFlat (s : String) : Option (List (String × JVal)) :=
  parseTomlLines (s.data.splitOn '\n')

/-- One branch of `bumpVersion` (src/utils.ts): parse the whole document
with `parseDoc`, read the parsed document's `version` field (`none`
models the throw of the parse itself, or of `parseSemVer` on a missing or
non-string version), bump its patch, and splice the new version into the
first regex match of the file text — when the regex does not match,
`String.replace` leaves the text unchanged and the file is rewritten as
is. -/
def bumpVersionFile (parseDoc : String → Option (List (String × JVal)))
    (lit : List Char) (content : String) : Option String :=
  match parseDoc content with
  | none => none
  | some doc =>
    match getStr doc "version" with
    | none => none
    | some vs =>
      match parseSemVer vs with
      | none => none
      | some sv =>
        some (String.mk (replaceField lit (formatSemVer (incrementPatch sv)).data content.data))

/-- Model of `bumpVersion` (src/utils.ts): prefer `extension.toml`
(parsed with `parseTomlFlat`), fall back to `extension.json` (parsed with
`parseJsonObj`), silently no-op when neither exists. -/
def bumpVersion (fs : FS) (name : String) : Option FS :=
  if existsSync fs (name ++ "/extension.toml") then
    match readFile fs (name ++ "/extension.toml") with
    | none => none
    | some content =>
      match bumpVersionFile parseTomlFlat verLitToml content with
      | none => none
      | some nc => some (writeFile fs (name ++ "/extension.toml") nc)
  else if existsSync fs (name ++ "/extension.json") then
    match readFile fs (name ++ "/extension.json") with
    | none => none
    | some content =>
      match bumpVersionFile parseJsonObj verLitJson content with
      | none => none
      | some nc => some (writeFile fs (name ++ "/extension.json") nc)
  else some fs

/-! ## Claim C1 -/

/-- C1 (amended): for every manifest (TOML or JSON) whose parsed document
has a version field that is valid semver *with no pre-release and no
build metadata*, and whose first `version = "…"` (resp. `"version": "…"`)
text match carries that version field, `bumpVersion` rewrites exactly
that span, leaving the rest of the file untouched, and the new version is
`major.minor.(patch+1)` — major and minor are unchanged and only the
patch component is incremented.  (In the JSON branch `version` must be
bound at most once, since a JavaScript object keeps only the last
duplicate.) -/
theorem bumpVersion_patch_only :
    (∀ (fs : FS) (name content vs : String) (doc : List (String × JVal))
       (pre v post : List Char) (a b c : Nat),
      readFile fs (name ++ "/extension.toml") = some content →
      parseTomlFlat content = some doc →
      getStr doc "version" = some vs →
      findField verLitToml content.data = some (pre, v, post) →
      vs = String.mk v →
      parseSemVer vs = some ⟨a, b, c, [], []⟩ →
      content.data = pre ++ verLitToml ++ v ++ '"' :: post ∧
      bumpVersion fs name =
        some (writeFile fs (name ++ "/extension.toml")
          (String.mk (pre ++ verLitToml ++
            (toString a ++ "." ++ toString b ++ "." ++ toString (c + 1)).data ++
            '"' :: post)))) ∧
    (∀ (fs : FS) (name content vs : String) (doc : List (String × JVal))
       (pre v post : List Char) (a b c : Nat),
      existsSync fs (name ++ "/extension.toml") = false →
      readFile fs (name ++ "/extension.json") = some content →
      parseJsonObj content = some doc →
      (doc.map Prod.fst).count "version" ≤ 1 →
      getStr doc "version" = some vs →
      findField verLitJson content.data = some (pre, v, post) →
      vs = String.mk v →
      parseSemVer vs = some ⟨a, b, c, [], []⟩ →
      content.data = pre ++ verLitJson ++ v ++ '"' :: post ∧
      bumpVersion fs name =
        some (writeFile fs (name ++ "/extension.json")
          (String.mk (pre ++ verLitJson ++
            (toString a ++ "." ++ toString b ++ "." ++ toString (c + 1)).data ++
            '"' :: post)))) := by
  constructor
  · intro fs name content vs doc pre v post a b c h1 h2 h3 h4 _h5 h6
    have hex : existsSync fs (name ++ "/extension.toml") = true := by
      simp [existsSync, existsFile, h1]
    refine ⟨by simpa using findField_eq_some h4, ?_⟩
    simp only [bumpVersion, hex, if_true, h1, bumpVersionFile, h2, h3, h6, replaceField, h4,
      formatSemVer_incrementPatch_plain]
  · intro fs name content vs doc pre v post a b c h0 h1 h2 _hdup h3 h4 _h5 h6
    refine ⟨by simpa using findField_eq_some h4, ?_⟩
    have hex : existsSync fs (name ++ "/extension.json") = true := by
      simp [existsSync, existsFile, h1]
    simp only [bumpVersion, h0, Bool.false_eq_true, if_false, hex, if_true, h1,
      bumpVersionFile, h2, h3, h6, replaceField, h4, formatSemVer_incrementPatch_plain]

def fsPrerelease : FS := ⟨[("repo/extension.toml", "version = \"1.2.3-alpha.1\"\n")]⟩

/-- C1 counterexample: on a manifest whose version field is the valid
semver `1.2.3-alpha.1`, `bumpVersion` produces `1.2.3` — the pre-release
metadata is dropped (and the patch component is not incremented), not
left untouched as the claim states (which would give `1.2.4-alpha.1`). -/
theorem bumpVersion_prerelease_counterexample :
    bumpVersion fsPrerelease "repo" =
      some ⟨[("repo/extension.toml", "version = \"1.2.3\"\n")]⟩ ∧
    ("version = \"1.2.3\"\n" : String) ≠ "version = \"1.2.4-alpha.1\"\n" := by
  exact ⟨by decide, by decide⟩

def fsBump : FS := ⟨[("r/extension.toml", "version = \"1.2.3\"\n")]⟩

/-- C1 witness: the amended theorem applied to a concrete manifest,
`1.2.3` becoming `1.2.4`. -/
theorem bumpVersion_patch_only_witness :
    "version = \"1.2.3\"\n".data = [] ++ verLitToml ++ "1.2.3".data ++ '"' :: ['\n'] ∧
    bumpVersion fsBump "r" =
      some (writeFile fsBump ("r" ++ "/extension.toml")
        (String.mk ([] ++ verLitToml ++
          (toString 1 ++ "." ++ toString 2 ++ "." ++ toString (3 + 1)).data ++
          '"' :: ['\n']))) :=
  bumpVersion_patch_only.1 fsBump "r" "version = \"1.2.3\"\n" "1.2.3"
    [("version", JVal.jstr "1.2.3")] [] "1.2.3".data ['\n'] 1 2 3
    (by decide) (by decide) (by decide) (by decide) (by decide) (by decide)

/-! ## The scrollbar attribute rename (src/bot2101.ts)

`patchScrollbarThumbBg` iterates over the `.json` entries of `themes/`,
and for every file containing `scrollbar_thumb.background` replaces all
occurrences with `scrollbar.thumb.background` and writes the file back.
`replaceScroll` models `String.prototype.replaceAll` for this fixed
pattern: leftmost, non-overlapping replacement.  It is defined with a
length fuel so that it is structurally recursive. -/

def scrollOld : List Char := "scrollbar_thumb.background".data

def scrollNew : List Char := "scrollbar.thumb.background".data

def replaceScrollF : Nat → List Char → List Char
  | 0, l => l
  | _ + 1, [] => []
  | fuel + 1, c :: cs =>
    if startsWithL scrollOld (c :: cs) then
      scrollNew ++ replaceScrollF fuel ((c :: cs).drop scrollOld.length)
    else c :: replaceScrollF fuel cs

/-- Model of `theme.replaceAll("scrollbar_thumb.background", "scrollbar.thumb.background")`. -/
def replaceScroll (l : List Char) : List Char :=
  replaceScrollF l.length l


theorem replaceScrollF_congr :
    ∀ (f1 f2 : Nat) (l : List Char), l.length ≤ f1 → l.length ≤ f2 →
      replaceScrollF f1 l = replaceScrollF f2 l := by
  intro f1
  induction f1 with
  | zero =>
    intro f2 l h1 _
    have hl : l = [] := List.eq_nil_of_length_eq_zero (Nat.le_zero.mp h1)
    subst hl
    cases f2 <;> rfl
  | succ m ih =>
    intro f2 l h1 h2
    cases l with
    | nil => cases f2 <;> rfl
    | cons c cs =>
      cases f2 with
      | zero => simp at h2
      | succ g =>
        have h26 : scrollOld.length = 26 := by decide
        have h1' : cs.length ≤ m := by simp only [List.length_cons] at h1; omega
        have h2' : cs.length ≤ g := by simp only [List.length_cons] at h2; omega
        simp only [replaceScrollF]
        by_cases hs : startsWithL scrollOld (c :: cs) = true
        · simp only [hs, if_true]
          congr 1
          apply ih
          · simp only [List.length_drop, List.length_cons, h26]
            omega
          · simp only [List.length_drop, List.length_cons, h26]
            omega
        · simp only [Bool.not_eq_true] at hs
          simp only [hs, Bool.false_eq_true, if_false]
          exact congrArg (c :: ·) (ih g cs h1' h2')

theorem replaceScroll_cons_pos {c : Char} {cs : List Char}
    (h : startsWithL scrollOld (c :: cs) = true) :
    replaceScroll (c :: cs) = scrollNew ++ replaceScroll ((c :: cs).drop scrollOld.length) := by
  unfold replaceScroll
  simp only [List.length_cons, replaceScrollF, h, if_true]
  congr 1
  apply replaceScrollF_congr
  · have h26 : scrollOld.length = 26 := by decide
    simp only [List.length_drop, List.length_cons, h26]
    omega
  · exact Nat.le_refl _

theorem replaceScroll_cons_neg {c : Char} {cs : List Char}
    (h : startsWithL scrollOld (c :: cs) = false) :
    replaceScroll (c :: cs) = c :: replaceScroll cs := by
  unfold replaceScroll
  simp only [List.length_cons, replaceScrollF, h, Bool.false_eq_true, if_false]

theorem startsWithL_append_left :
    ∀ (p a x : List Char), p.length ≤ a.length →
      startsWithL p (a ++ x) = startsWithL p a := by
  intro p
  induction p with
  | nil => intro a x _; rfl
  | cons q qs ih =>
    intro a x h
    cases a with
    | nil => simp at h
    | cons b bs =>
      simp only [List.cons_append, startsWithL]
      by_cases hq : q = b
      · simp only [hq, if_pos rfl]
        exact ih bs x (by simpa using h)
      · simp [hq]

/-- The tail of the old key; `scrollOld = 's' :: scrollOldTl`. -/
def scrollOldTl : List Char := "crollbar_thumb.background".data

/-- The tail of the new key; `scrollNew = 's' :: scrollNewTl`. -/
def scrollNewTl : List Char := "crollbar.thumb.background".data

theorem scrollOld_eq : scrollOld = 's' :: scrollOldTl := rfl

theorem scrollNew_eq : scrollNew = 's' :: scrollNewTl := rfl

/-- No proper suffix of the old key starts with `'s'`: `'s'` occurs only
at its head. -/
theorem scrollOld_drop_head :
    ∀ j, j < 26 → 1 ≤ j → (scrollOld.drop j).head? ≠ some 's' := by decide

/-- No proper suffix of the new key starts with `'s'` either. -/
theorem scrollNew_drop_head :
    ∀ p, p < 26 → 1 ≤ p → (scrollNew.drop p).head? ≠ some 's' := by decide

theorem scrollOld_not_prefix_new : startsWithL scrollOld scrollNew = false := by decide

/-- If a (shifted) suffix of the old key is a prefix of `replaceScroll cs`,
it was already a prefix of `cs`: replacement never manufactures the
missing tail of a partial match. -/
theorem scroll_matchBack :
    ∀ (n : Nat) (cs : List Char), cs.length ≤ n →
      ∀ j, 1 ≤ j →
        startsWithL (scrollOld.drop j) (replaceScroll cs) = true →
        startsWithL (scrollOld.drop j) cs = true := by
  intro n
  induction n with
  | zero =>
    intro cs h j _ hsw
    have : cs = [] := List.eq_nil_of_length_eq_zero (Nat.le_zero.mp h)
    subst this
    exact hsw
  | succ m ih =>
    intro cs hlen j hj hsw
    cases cs with
    | nil => exact hsw
    | cons c cs' =>
      have hlen' : cs'.length ≤ m := by
        simp only [List.length_cons] at hlen
        omega
      by_cases hpos : startsWithL scrollOld (c :: cs') = true
      · rw [replaceScroll_cons_pos hpos] at hsw
        cases hd : scrollOld.drop j with
        | nil => simp [startsWithL]
        | cons a as =>
          have hj26 : j < 26 := by
            have hlen2 := congrArg List.length hd
            have h26 : scrollOld.length = 26 := by decide
            simp only [List.length_drop, h26, List.length_cons] at hlen2
            omega
          have hhead : a ≠ 's' := by
            intro ha
            exact scrollOld_drop_head j hj26 hj (by simp [hd, ha])
          rw [hd, scrollNew_eq] at hsw
          simp [startsWithL, List.cons_append, hhead] at hsw
      · have hneg : startsWithL scrollOld (c :: cs') = false := by
          simpa using hpos
        rw [replaceScroll_cons_neg hneg] at hsw
        cases hd : scrollOld.drop j with
        | nil => simp [startsWithL]
        | cons a as =>
          rw [hd] at hsw
          have has : as = scrollOld.drop (j + 1) := by
            have ht := List.tail_drop scrollOld j
            rw [hd] at ht
            simpa using ht
          by_cases hac : a = c
          · subst hac
            simp only [startsWithL, if_pos rfl] at hsw
            rw [has] at hsw
            have hrec := ih cs' hlen' (j + 1) (by omega) hsw
            simp only [startsWithL, if_pos rfl]
            rw [has]
            exact hrec
          · simp [startsWithL, hac] at hsw

/-- Appending an occurrence-free continuation to a block none of whose
suffixes starts a match keeps the result occurrence-free. -/
theorem occurs_append_false :
    ∀ (a x : List Char),
      (∀ p, p < a.length → startsWithL scrollOld (a.drop p ++ x) = false) →
      occursL scrollOld x = false →
      occursL scrollOld (a ++ x) = false := by
  intro a
  induction a with
  | nil => intro x _ hx; simpa using hx
  | cons b bs ih =>
    intro x hsuf hx
    have hcons : (b :: bs) ++ x = b :: (bs ++ x) := rfl
    rw [hcons]
    simp only [occursL, Bool.or_eq_false_iff]
    constructor
    · have h0 := hsuf 0 (by simp)
      simpa using h0
    · exact ih x (fun p hp => by simpa using hsuf (p + 1) (by simpa using Nat.succ_lt_succ hp)) hx

/-- After `replaceScroll`, the old key no longer occurs anywhere: the new
key cannot recreate an occurrence, because `'s'` occurs only at the head
of either key and the two keys differ (at the `_` / `.`). -/
theorem occurs_replaceScroll :
    ∀ (n : Nat) (l : List Char), l.length ≤ n →
      occursL scrollOld (replaceScroll l) = false := by
  intro n
  induction n with
  | zero =>
    intro l h
    have : l = [] := List.eq_nil_of_length_eq_zero (Nat.le_zero.mp h)
    subst this
    rfl
  | succ m ih =>
    intro l hlen
    cases l with
    | nil => rfl
    | cons c cs =>
      by_cases hpos : startsWithL scrollOld (c :: cs) = true
      · rw [replaceScroll_cons_pos hpos]
        have hrec : occursL scrollOld (replaceScroll ((c :: cs).drop scrollOld.length)) = false := by
          apply ih
          have h26 : scrollOld.length = 26 := by decide
          simp only [List.length_drop, List.length_cons, h26]
          simp only [List.length_cons] at hlen
          omega
        apply occurs_append_false _ _ _ hrec
        intro p hp
        have h26n : scrollNew.length = 26 := by decide
        rw [h26n] at hp
        rcases Nat.eq_zero_or_pos p with hp0 | hp1
        · subst hp0
          simp only [List.drop_zero]
          rw [startsWithL_append_left scrollOld scrollNew _ (by decide)]
          exact scrollOld_not_prefix_new
        · cases hd : scrollNew.drop p with
          | nil =>
            have hlen2 := congrArg List.length hd
            simp only [List.length_drop, h26n, List.length_nil] at hlen2
            exact absurd hlen2 (by omega)
          | cons a as =>
            have hhead : a ≠ 's' := by
              intro ha
              exact scrollNew_drop_head p hp hp1 (by simp [hd, ha])
            rw [scrollOld_eq]
            simp [startsWithL, List.cons_append, Ne.symm hhead]
      · have hneg : startsWithL scrollOld (c :: cs) = false := by simpa using hpos
        rw [replaceScroll_cons_neg hneg]
        simp only [occursL, Bool.or_eq_false_iff]
        refine ⟨?_, ih cs (by simp only [List.length_cons] at hlen; omega)⟩
        by_cases hc : ('s' : Char) = c
        · rw [scrollOld_eq]
          simp only [startsWithL, hc, if_pos rfl]
          cases hsw : startsWithL scrollOldTl (replaceScroll cs) with
          | false => rfl
          | true =>
            have h1 : startsWithL (scrollOld.drop 1) (replaceScroll cs) = true := hsw
            have h2 : startsWithL scrollOldTl cs = true :=
              scroll_matchBack cs.length cs (Nat.le_refl _) 1 (Nat.le_refl _) h1
            have hstart : startsWithL scrollOld (c :: cs) = true := by
              rw [scrollOld_eq, ← hc]
              simpa [startsWithL] using h2
            rw [hstart] at hneg
            exact hneg
        · rw [scrollOld_eq]
          simp [startsWithL, hc]

/-- Model of the `findThemes` generator (src/bot2101.ts): the `.json`
entries of the `themes` directory, as paths, in iteration order.  (The
generator is consumed while files are rewritten; since rewriting never
changes the set of names, taking the list up front is equivalent.) -/
def findThemes (fs : FS) : List String :=
  ((readDirNames fs "themes").filter (fun n => endsWithL ".json".data n.data)).map
    (fun n => "themes/" ++ n)

/-- One iteration of the `patchScrollbarThumbBg` loop: skip a theme file
without the old key, otherwise replace all occurrences, write the file
back and record that a change was made. -/
def patchStep (acc : FS × Bool) (p : String) : FS × Bool :=
  match readFile acc.1 p with
  | none => acc
  | some theme =>
    if occursL scrollOld theme.data then
      (writeFile acc.1 p (String.mk (replaceScroll theme.data)), true)
    else acc

/-- Model of `patchScrollbarThumbBg` (src/bot2101.ts), relative to the
repo root the bot has switched into. -/
def patchScrollbarThumbBg (fs : FS) : FS × Bool :=
  (findThemes fs).foldl patchStep (fs, false)

theorem patchStep_fst (acc : FS × Bool) (p : String) :
    (patchStep acc p).1.files.map Prod.fst = acc.1.files.map Prod.fst := by
  unfold patchStep
  cases hr : readFile acc.1 p with
  | none => rfl
  | some theme =>
    by_cases ho : occursL scrollOld theme.data = true
    · simp only [ho, if_true]
      exact map_fst_writeEntries acc.1.files p _ (by unfold readFile at hr; rw [hr]; simp)
    · simp [ho]

theorem foldl_patch_fst :
    ∀ (todo : List String) (acc : FS × Bool),
      ((todo.foldl patchStep acc).1.files.map Prod.fst) = acc.1.files.map Prod.fst := by
  intro todo
  induction todo with
  | nil => intro acc; rfl
  | cons p rest ih =>
    intro acc
    rw [List.foldl_cons, ih (patchStep acc p), patchStep_fst]

theorem patchStep_preserve (acc : FS × Bool) (p q : String) (t : String)
    (h : readFile (patchStep acc p).1 q = some t) :
    readFile acc.1 q = some t ∨ occursL scrollOld t.data = false := by
  unfold patchStep at h
  cases hr : readFile acc.1 p with
  | none => rw [hr] at h; exact Or.inl h
  | some theme =>
    rw [hr] at h
    dsimp only at h
    by_cases ho : occursL scrollOld theme.data = true
    · rw [if_pos ho] at h
      by_cases hq : q = p
      · subst hq
        have hself : readFile (writeFile acc.1 q (String.mk (replaceScroll theme.data))) q =
            some (String.mk (replaceScroll theme.data)) :=
          lookupFile_writeEntries_self acc.1.files q _
        rw [hself] at h
        right
        rw [← Option.some.inj h]
        exact occurs_replaceScroll theme.data.length theme.data (Nat.le_refl _)
      · left
        rw [← h]
        exact (lookupFile_writeEntries_ne acc.1.files p q _ hq).symm
    · rw [if_neg ho] at h
      exact Or.inl h

theorem foldl_patch_preserve :
    ∀ (todo : List String) (acc : FS × Bool) (q t : String),
      readFile ((todo.foldl patchStep acc).1) q = some t →
      readFile acc.1 q = some t ∨ occursL scrollOld t.data = false := by
  intro todo
  induction todo with
  | nil => intro acc q t h; exact Or.inl h
  | cons p rest ih =>
    intro acc q t h
    rw [List.foldl_cons] at h
    rcases ih (patchStep acc p) q t h with h1 | h2
    · exact patchStep_preserve acc p q t h1
    · exact Or.inr h2

theorem foldl_patch_processed_free :
    ∀ (todo : List String) (acc : FS × Bool) (q : String), q ∈ todo →
      ∀ t, readFile ((todo.foldl patchStep acc).1) q = some t →
        occursL scrollOld t.data = false := by
  intro todo
  induction todo with
  | nil => intro acc q hq; simp at hq
  | cons p rest ih =>
    intro acc q hq t h
    rw [List.foldl_cons] at h
    rcases List.mem_cons.mp hq with hqp | hqr
    · subst hqp
      rcases foldl_patch_preserve rest (patchStep acc q) q t h with h1 | h2
      · unfold patchStep at h1
        cases hr : readFile acc.1 q with
        | none =>
          rw [hr] at h1
          dsimp only at h1
          rw [hr] at h1
          exact absurd h1 (by simp)
        | some theme =>
          rw [hr] at h1
          dsimp only at h1
          by_cases ho : occursL scrollOld theme.data = true
          · rw [if_pos ho] at h1
            have hself : readFile (writeFile acc.1 q (String.mk (replaceScroll theme.data))) q =
                some (String.mk (replaceScroll theme.data)) :=
              lookupFile_writeEntries_self acc.1.files q _
            rw [hself] at h1
            rw [← Option.some.inj h1]
            exact occurs_replaceScroll theme.data.length theme.data (Nat.le_refl _)
          · rw [if_neg ho] at h1
            rw [hr] at h1
            rw [← Option.some.inj h1]
            simpa using ho
      · exact h2
    · exact ih (patchStep acc p) q hqr t h

theorem foldl_patch_nochange :
    ∀ (todo : List String) (f : FS) (b : Bool),
      (∀ q ∈ todo, ∀ t, readFile f q = some t → occursL scrollOld t.data = false) →
      todo.foldl patchStep (f, b) = (f, b) := by
  intro todo
  induction todo with
  | nil => intro f b _; rfl
  | cons p rest ih =>
    intro f b hfree
    rw [List.foldl_cons]
    have hstep : patchStep (f, b) p = (f, b) := by
      unfold patchStep
      cases hr : readFile f p with
      | none => rfl
      | some theme =>
        have : occursL scrollOld theme.data = false :=
          hfree p (List.mem_cons_self p rest) theme hr
        simp [this]
    rw [hstep]
    exact ih f b (fun q hq t ht => hfree q (List.mem_cons_of_mem p hq) t ht)

theorem findThemes_congr {fs1 fs2 : FS}
    (h : fs1.files.map Prod.fst = fs2.files.map Prod.fst) :
    findThemes fs1 = findThemes fs2 := by
  unfold findThemes readDirNames
  rw [h]

/-! ## Claim C7 -/

/-- C7: the attribute rename is idempotent.  If one application of
`patchScrollbarThumbBg` produced `fs'` with `changed = true`, a second
application returns `changed = false` and leaves every file unchanged
(`fs'` is returned as is). -/
theorem patchScrollbarThumbBg_idempotent (fs fs' : FS)
    (h : patchScrollbarThumbBg fs = (fs', true)) :
    patchScrollbarThumbBg fs' = (fs', false) := by
  have hfst : fs'.files.map Prod.fst = fs.files.map Prod.fst := by
    have hk := foldl_patch_fst (findThemes fs) (fs, false)
    unfold patchScrollbarThumbBg at h
    rw [h] at hk
    exact hk
  have hth : findThemes fs' = findThemes fs := findThemes_congr hfst
  have hfree : ∀ q ∈ findThemes fs', ∀ t, readFile fs' q = some t →
      occursL scrollOld t.data = false := by
    intro q hq t ht
    rw [hth] at hq
    have h1 : readFile ((findThemes fs).foldl patchStep (fs, false)).1 q = some t := by
      unfold patchScrollbarThumbBg at h
      rw [h]
      exact ht
    exact foldl_patch_processed_free (findThemes fs) (fs, false) q hq t h1
  unfold patchScrollbarThumbBg
  exact foldl_patch_nochange (findThemes fs') fs' false hfree

def fsTheme : FS :=
  ⟨[("themes/dark.json", "\x7b \"scrollbar_thumb.background\": \"#112233\" \x7d")]⟩

def fsThemePatched : FS :=
  ⟨[("themes/dark.json", "\x7b \"scrollbar.thumb.background\": \"#112233\" \x7d")]⟩

/-- C7 witness: one theme file containing the old key; the first pass
rewrites it and reports a change, the second pass is a no-op. -/
theorem patchScrollbarThumbBg_idempotent_witness :
    patchScrollbarThumbBg fsTheme = (fsThemePatched, true) ∧
    patchScrollbarThumbBg fsThemePatched = (fsThemePatched, false) :=
  ⟨by decide, patchScrollbarThumbBg_idempotent fsTheme fsThemePatched (by decide)⟩

end Botfixzed

